import Mathlib

/-!
Verification model of `dedupe_yara_rule.py` (yara rule deduper, v0.2).

Strings are modelled as `List Char`.  Python string operations (`strip`,
`splitlines`, `partition`, `split`, substring tests) are modelled by
executable functions below; the three module-level regexes
(`yara_rule_regex`, `comments_regex`, `imports_regex`, compiled with
`re.MULTILINE | re.DOTALL`) are modelled by hand-rolled scanners that follow
the Python `re` backtracking semantics of those specific patterns
(leftmost non-overlapping `findall` matches).
-/

namespace DedupeYara

/-- Python whitespace for `str.strip()` and the regex class `\s`
(space, tab, newline, carriage return, vertical tab, form feed). -/
def isPySpace (c : Char) : Bool :=
  c = ' ' || c = '\t' || c = '\n' || c = '\r' || c = '\x0b' || c = '\x0c'

/-- Line terminators recognised by Python `str.splitlines`. -/
def isLineEnd (c : Char) : Bool :=
  c = '\n' || c = '\r' || c = '\x0b' || c = '\x0c' || c = '\x1c' ||
  c = '\x1d' || c = '\x1e' || c = '\x85' || c = '\u2028' || c = '\u2029'

/-- Model of Python `str.strip()`: drop leading and trailing whitespace. -/
def pyStrip (l : List Char) : List Char :=
  ((l.dropWhile isPySpace).reverse.dropWhile isPySpace).reverse

/-- Model of Python `str.strip(chars)`: drop leading and trailing characters
belonging to `cs`. -/
def pyStripChars (cs : List Char) (l : List Char) : List Char :=
  ((l.dropWhile (cs.contains ·)).reverse.dropWhile (cs.contains ·)).reverse

/-- One step (right to left) of `str.splitlines`: state is
(completed lines to the right, current line, character immediately to the
right).  A `'\r'` immediately followed by `'\n'` forms a single terminator. -/
def splitlinesStep (c : Char) (st : List (List Char) × List Char × Option Char) :
    List (List Char) × List Char × Option Char :=
  if c = '\r' ∧ st.2.2 = some '\n' then (st.1, st.2.1, some c)
  else if isLineEnd c then
    if st.2.2 = none then (st.1, st.2.1, some c) else (st.2.1 :: st.1, [], some c)
  else (st.1, c :: st.2.1, some c)

/-- Model of Python `str.splitlines()`. -/
def pySplitlines (l : List Char) : List (List Char) :=
  match l with
  | [] => []
  | _ =>
    let s := l.foldr (fun c st => splitlinesStep c st) ([], [], none)
    s.2.1 :: s.1

/-- Model of Python `str.partition(c)` for a one-character separator:
(text before the first occurrence, the separator if present, the rest). -/
def pyPartition (c : Char) : List Char → List Char × List Char × List Char
  | [] => ([], [], [])
  | a :: rest =>
    if a = c then ([], [c], rest)
    else
      let p := pyPartition c rest
      (a :: p.1, p.2.1, p.2.2)

/-- Model of Python `str.split(c)` for a one-character separator. -/
def pySplit (c : Char) (l : List Char) : List (List Char) :=
  l.foldr
    (fun a acc =>
      match acc with
      | f :: fs => if a = c then [] :: f :: fs else (a :: f) :: fs
      | [] => [[a]])
    [[]]

/-- Model of `"sep".join(xs)`. -/
def pyJoin (sep : List Char) : List (List Char) → List Char
  | [] => []
  | [x] => x
  | x :: rest => x ++ sep ++ pyJoin sep rest

/-- Left brace character (written by code point). -/
def braceL : Char := '\x7b'

/-- Right brace character (written by code point). -/
def braceR : Char := '\x7d'

/-- Model of one `findall` step of `imports_regex = r"(^import\s+.*?$)"`
(MULTILINE, DOTALL) at a line-start position: literal `import`, one or more
whitespace characters (greedy, may cross newlines), then a lazy span ending
at the first position where `$` matches (before a newline or at the end).
Returns the matched text and the remaining input, or `none`. -/
def importMatch (l : List Char) : Option (List Char × List Char) :=
  if ("import".toList).isPrefixOf l then
    let rest6 := l.drop 6
    let ws := rest6.takeWhile isPySpace
    if ws = [] then none
    else
      let afterWs := rest6.dropWhile isPySpace
      some ("import".toList ++ ws ++ afterWs.takeWhile (· ≠ '\n'),
            afterWs.dropWhile (· ≠ '\n'))
  else none

/-- Scanner for `import_re.findall`: walks the text left to right, trying
`importMatch` at every line-start position, resuming after each
(non-overlapping) match.  `fuel` bounds the recursion; the wrapper passes
enough for the whole input. -/
def importScanAux : Nat → Bool → List Char → List (List Char)
  | 0, _, _ => []
  | _ + 1, _, [] => []
  | fuel + 1, atLS, c :: rest =>
    if atLS then
      match importMatch (c :: rest) with
      | some (m, r) => m :: importScanAux fuel false r
      | none => importScanAux fuel (c = '\n') rest
    else importScanAux fuel (c = '\n') rest

/-- Model of `import_re.findall(content)` (line 160 of the source). -/
def import_scan (l : List Char) : List (List Char) :=
  importScanAux (l.length + 1) true l

/-- Body scanner for the block-comment alternative of `comments_regex`:
given the text after an opening `/*`, consume repetition units
(`[^*]`, or a star run followed by a character other than `*` and `/`)
until the closing `\*+/`.  Returns (consumed text including the closing
stars and slash, remainder), or `none` when the comment is unclosed. -/
def blockScanAux : Nat → List Char → Option (List Char × List Char)
  | 0, _ => none
  | _ + 1, [] => none
  | fuel + 1, c :: rest =>
    if c = '*' then
      let stars := (c :: rest).takeWhile (· = '*')
      match (c :: rest).dropWhile (· = '*') with
      | '/' :: r2 => some (stars ++ ['/'], r2)
      | d :: r2 => (blockScanAux fuel r2).map (fun p => (stars ++ d :: p.1, p.2))
      | [] => none
    else (blockScanAux fuel rest).map (fun p => (c :: p.1, p.2))

/-- Model of one `findall` step of
`comments_regex = r"(/\*([^*]|[\r\n]|(\*+([^*/]|[\r\n])))*\*+/|^//.*?$)"`
(MULTILINE, DOTALL): a block comment `/* ... */` anywhere, or a line
comment `// ...` at a line start. -/
def commentMatch (fuel : Nat) (atLS : Bool) (l : List Char) :
    Option (List Char × List Char) :=
  if ("/*".toList).isPrefixOf l then
    (blockScanAux fuel (l.drop 2)).map (fun p => ('/' :: '*' :: p.1, p.2))
  else if atLS && ("//".toList).isPrefixOf l then
    let rest2 := l.drop 2
    some ('/' :: '/' :: rest2.takeWhile (· ≠ '\n'), rest2.dropWhile (· ≠ '\n'))
  else none

/-- Scanner for `comments_re.findall` (full matches). -/
def commentScanAux : Nat → Bool → List Char → List (List Char)
  | 0, _, _ => []
  | _ + 1, _, [] => []
  | fuel + 1, atLS, c :: rest =>
    match commentMatch (fuel + 1) atLS (c :: rest) with
    | some (m, r) => m :: commentScanAux fuel false r
    | none => commentScanAux fuel (c = '\n') rest

/-- Model of `comments_re.findall(content)` (line 161 of the source),
restricted to the full matches: `findall` actually returns
(group1, group2, group3, group4) tuples, but the flatten-and-filter at
lines 163-165 keeps only components that start with `/*` or `//` after
stripping, and the inner captures (a single non-star character, or a star
run followed by one character) can never satisfy that, so exactly the full
matches survive. -/
def comment_scan (l : List Char) : List (List Char) :=
  commentScanAux (l.length + 1) true l

/-- Character class `[\s+private\/\*]` opening `yara_rule_regex`. -/
def class1 (c : Char) : Bool :=
  isPySpace c || c = '+' || c = 'p' || c = 'r' || c = 'i' || c = 'v' ||
  c = 'a' || c = 't' || c = 'e' || c = '/' || c = '*'

/-- Character class `[0-9a-zA-Z_\@\#\$\%\^\&\(\)\-\=\:\s]` of
`yara_rule_regex` (the identifier-and-tags region). -/
def class2 (c : Char) : Bool :=
  c.isAlphanum || c = '_' || c = '@' || c = '#' || c = '$' || c = '%' ||
  c = '^' || c = '&' || c = '(' || c = ')' || c = '-' || c = '=' ||
  c = ':' || isPySpace c

/-- Split at the first occurrence of `pat` (a nonempty literal):
returns (text before it, text after it). -/
def splitFirstOcc (pat : List Char) : List Char → Option (List Char × List Char)
  | [] => if pat = [] then some ([], []) else none
  | c :: rest =>
    if pat.isPrefixOf (c :: rest) then some ([], (c :: rest).drop pat.length)
    else (splitFirstOcc pat rest).map (fun p => (c :: p.1, p.2))

/-- Find the earliest position matching `\s\}` (a whitespace character
immediately followed by a closing brace): returns (text before the
whitespace, text after the brace). -/
def findWsBrace : List Char → Option (List Char × List Char)
  | a :: b :: rest =>
    if isPySpace a && b = braceR then some ([], rest)
    else (findWsBrace (b :: rest)).map (fun p => (a :: p.1, p.2))
  | _ => none

/-- Attempt the part of `yara_rule_regex` after the opening class run,
with the opening `[\s+private\/\*]*` consuming exactly `k` characters:
literal `rule`, one whitespace, a nonempty `class2` run, `{`, a lazy span
to the first `condition`, and a lazy span to the first `\s\}`.  Returns the
total match length from the start of `l`. -/
def ruleContAt (l : List Char) (k : Nat) : Option Nat :=
  let after := l.drop k
  if ("rule".toList).isPrefixOf after then
    match after.drop 4 with
    | w :: rest4 =>
      if isPySpace w then
        let run2 := rest4.takeWhile class2
        if run2 = [] then none
        else
          match rest4.dropWhile class2 with
          | b :: body =>
            if b = braceL then
              match splitFirstOcc ("condition".toList) body with
              | some (b1, _) =>
                match findWsBrace ((body.drop b1.length).drop 9) with
                | some (b3, _) =>
                    some (k + 5 + run2.length + 1 + b1.length + 9 + b3.length + 2)
                | none => none
              | none => none
            else none
          | [] => none
      else none
    | [] => none
  else none

/-- Backtracking over the greedy opening class run: try `k` characters
first, then `k - 1`, and so on down to `0` (the continuation position of a
successful `rule` keyword is in fact unique, so the order is immaterial). -/
def rulesTryFrom (l : List Char) : Nat → Option Nat
  | 0 => ruleContAt l 0
  | k + 1 =>
    match ruleContAt l (k + 1) with
    | some n => some n
    | none => rulesTryFrom l k

/-- Model of one `findall` step of `yara_rule_regex` at a line-start
position: returns the matched rule block and the remaining input. -/
def ruleMatch (l : List Char) : Option (List Char × List Char) :=
  (rulesTryFrom l (l.takeWhile class1).length).map
    (fun n => (l.take n, l.drop n))

/-- Scanner for `rules_re.findall`. -/
def rulesScanAux : Nat → Bool → List Char → List (List Char)
  | 0, _, _ => []
  | _ + 1, _, [] => []
  | fuel + 1, atLS, c :: rest =>
    if atLS then
      match ruleMatch (c :: rest) with
      | some (m, r) => m :: rulesScanAux fuel false r
      | none => rulesScanAux fuel (c = '\n') rest
    else rulesScanAux fuel (c = '\n') rest

/-- Model of `rules_re.findall(content)` (line 149 of the source). -/
def rules_scan (l : List Char) : List (List Char) :=
  rulesScanAux (l.length + 1) true l

/-- The characters stripped by `.strip("*/")` and `.strip("/*")` (both are
the two-character set star, slash). -/
def starSlash : List Char := ['*', '/']

/-- Model of the per-match cleanup at line 156:
`rule.strip().strip("*/").strip().strip("/*").strip()`. -/
def cleanRule (r : List Char) : List Char :=
  pyStrip (pyStripChars starSlash (pyStrip (pyStripChars starSlash (pyStrip r))))

/-- The filter condition of lines 164-165:
`comments.strip().startswith(("/*", "//"))`. -/
def startsCommentTok (c : List Char) : Bool :=
  ("/*".toList).isPrefixOf (pyStrip c) || ("//".toList).isPrefixOf (pyStrip c)

/-- Result of `extract` (lines 118-170): each component is `none` for the
early `return (None, None, None)` and `some` of a list otherwise. -/
structure Extracted where
  imports : Option (List (List Char))
  rules : Option (List (List Char))
  comments : Option (List (List Char))
deriving DecidableEq, Repr

/-- Model of `extract` (lines 118-170) applied to the decoded file content
(`none` when no encoding could decode the file, which the loop at lines
130-144 leaves as `content = None`).  Mirrors the source: rule matching
first; imports and comments are only scanned when at least one rule block
matched; commented rule blocks are removed from the live rule list by a
substring test against the concatenation of the kept comment matches. -/
def extract (content : Option (List Char)) : Extracted :=
  match content with
  | none => ⟨none, none, none⟩
  | some c =>
    if c = [] then ⟨none, none, none⟩
    else
      let ys := rules_scan c
      if ys = [] then ⟨some [], some ys, some []⟩
      else
        let ys := ys.map cleanRule
        let imps := import_scan c
        let raw := comment_scan c
        if raw = [] then ⟨some imps, some ys, some raw⟩
        else
          let cms := raw.filter startsCommentTok
          ⟨some imps, some (ys.filter (fun x => ! decide (x <:+: pyJoin [] cms))),
           some cms⟩

/-- Model of the loop at lines 130-144: try the decoders in order, keep the
first decode that succeeds (even when it yields the empty string). -/
def firstDecode : List (Option (List Char)) → Option (List Char)
  | [] => none
  | some c :: _ => some c
  | none :: rest => firstDecode rest

/-- The truthiness test `not x` applied to an optional list: `None` and the
empty list are both falsy. -/
def optFalsy : Option (List (List Char)) → Bool
  | none => true
  | some l => l.isEmpty

/-- Model of the rule-name computation at lines 231-232:
`rulename = r.strip().splitlines()[0].strip().partition("{")[0].strip()`
then `rulename = r.split(":")[0].strip() if ":" in rulename else rulename`. -/
def ruleName (r : List Char) : List Char :=
  let rn1 := pyStrip ((pySplitlines (pyStrip r)).headD [])
  let rn2 := pyStrip (pyPartition braceL rn1).1
  if rn2.contains ':' then pyStrip ((pySplit ':' r).headD []) else rn2

/-- The provenance annotation added to a kept rule at line 240:
`"\n// rule from: {yf}\n" + r.strip() + "\n"`. -/
def annot (yf r : List Char) : List Char :=
  "\n// rule from: ".toList ++ yf ++ '\n' :: pyStrip r ++ ['\n']

/-- Insertion into a Python set modelled as a duplicate-free list: a new
element is appended, an existing one leaves the set unchanged. -/
def insertSet (l : List (List Char)) (x : List Char) : List (List Char) :=
  if x ∈ l then l else l ++ [x]

/-- Append `yf` to the declaring-file list of `name` in `rule_dict`
(lines 234-235: `rule_dict[rulename] = rule_dict.get(rulename, [])` then
`rule_dict[rulename].append(yf)`). -/
def dictAppend (d : List (List Char × List (List Char))) (name yf : List Char) :
    List (List Char × List (List Char)) :=
  if d.any (fun p => p.1 = name) then
    d.map (fun p => if p.1 = name then (p.1, p.2 ++ [yf]) else p)
  else d ++ [(name, [yf])]

/-- The process-wide mutable state of the script: the import set, the
registry (rule-name set, kept annotated rules, declaring-file map) and the
counters. -/
structure DState where
  all_imports : List (List Char)
  rule_names : List (List Char)
  all_yara_rules : List (List Char)
  rule_dict : List (List Char × List (List Char))
  total_rules : Nat
  total_duplicate_rules : Nat
deriving DecidableEq, Repr

/-- The initial (module-load) state: empty sets and zero counters. -/
def st0 : DState := ⟨[], [], [], [], 0, 0⟩

/-- Model of one iteration of the rule loop at lines 230-243, also
accumulating the per-file `deduped_content` buffer: compute the rule name,
record provenance, then either keep the block (fresh name) or count a
duplicate. -/
def processRuleAcc (yf : List Char) (s : DState) (d : List Char) (r : List Char) :
    DState × List Char :=
  let n := ruleName r
  let s := { s with rule_dict := dictAppend s.rule_dict n yf }
  if n ∈ s.rule_names then
    ({ s with total_duplicate_rules := s.total_duplicate_rules + 1 }, d)
  else
    ({ s with rule_names := insertSet s.rule_names n,
              all_yara_rules := insertSet s.all_yara_rules (annot yf r) },
     d ++ pyStrip r ++ "\n\n".toList)

/-- The state transition of one registration (the lock-protected body of
lines 233-243), independent of the output buffer. -/
def processRulePair (s : DState) (p : List Char × List Char) : DState :=
  (processRuleAcc p.1 s [] p.2).1

/-- An output artifact written by `dedupe`: a file in the commented-rules
tree (lines 216-221) or in the deduped-rules tree (line 246).  `dir` is the
source file's immediate parent directory name, `fname` its base name. -/
inductive Artifact where
  | commented (dir fname : List Char) (contents : List (List Char))
  | perFile (dir fname : List Char) (contents : List Char)
deriving DecidableEq, Repr

/-- Model of `os.path.dirname` for slash-separated paths. -/
def pyDirname (p : List Char) : List Char :=
  if p.contains '/' then (p.reverse.dropWhile (· ≠ '/')).reverse.dropLast ++
    (if ((p.reverse.dropWhile (· ≠ '/')).reverse.dropLast) = [] then ['/'] else [])
  else []

/-- Model of `os.path.basename` for slash-separated paths. -/
def pyBasename (p : List Char) : List Char :=
  (p.reverse.takeWhile (· ≠ '/')).reverse

/-- Model of `os.path.normpath` restricted to already-normalised walk
output: strips trailing slashes (dot segments are not modelled). -/
def pyNormpath (p : List Char) : List Char :=
  let q := (p.reverse.dropWhile (· = '/')).reverse
  if q = [] then if p = [] then ['.'] else ['/'] else q

/-- The source file's immediate parent directory name,
`os.path.basename(os.path.normpath(os.path.dirname(yf)))` (line 193). -/
def parentDirName (yf : List Char) : List Char :=
  pyBasename (pyNormpath (pyDirname yf))

/-- Model of the body of the `dedupe` loop (lines 190-246) for one file:
given the decoded content, extract, merge imports, write the commented-rule
artifact, register every rule block, and write the per-file deduped
artifact.  Returns the new state and the artifacts written (I/O errors are
modelled separately). -/
def processFile (s : DState) (yf : List Char) (content : Option (List Char)) :
    DState × List Artifact :=
  let dir := parentDirName yf
  let fname := pyBasename yf
  let e := extract content
  if optFalsy e.imports && optFalsy e.rules && optFalsy e.comments then (s, [])
  else
    let imps := e.imports.getD []
    let deduped0 : List Char :=
      if imps.isEmpty then [] else pyJoin [] imps ++ "\n\n\n".toList
    let s := if imps.isEmpty then s
             else { s with all_imports := imps.foldl insertSet s.all_imports }
    let cms := e.comments.getD []
    let arts :=
      if cms.isEmpty then []
      else [Artifact.commented dir fname (if imps.isEmpty then cms else imps ++ cms)]
    let rs := e.rules.getD []
    if rs.isEmpty then (s, arts)
    else
      let s := { s with total_rules := s.total_rules + rs.length }
      let sd := rs.foldl (fun sd r => processRuleAcc yf sd.1 sd.2 r) (s, deduped0)
      (sd.1, arts ++ [Artifact.perFile dir fname sd.2])

/-- Model of the serial `dedupe` run (lines 190-246) over a list of
(file path, decoded content) pairs, accumulating state and artifacts. -/
def runDedupe (files : List (List Char × Option (List Char))) :
    DState × List Artifact :=
  files.foldl
    (fun acc f =>
      let r := processFile acc.1 f.1 f.2
      (r.1, acc.2 ++ r.2))
    (st0, [])

/-- The sequence of lock-protected registration calls of a whole run, in
registration order: under threading this is an arbitrary interleaving of
the per-shard sequences, so it is modelled as an arbitrary list of
(source file, rule block) pairs folded through the registration step. -/
def registerAll (pairs : List (List Char × List Char)) : DState :=
  pairs.foldl processRulePair st0

/-- Lexicographic comparison of character lists by code point, the order
used by Python `sorted` on strings. -/
def lcLeB : List Char → List Char → Bool
  | [], _ => true
  | _ :: _, [] => false
  | a :: as, b :: bs => if a = b then lcLeB as bs else decide (a < b)

/-- The propositional form of `lcLeB`. -/
def lcLe (a b : List Char) : Prop := lcLeB a b = true

instance : DecidableRel lcLe := fun _ _ => inferInstanceAs (Decidable (_ = true))

/-- Model of `sorted` on a collection of strings. -/
def pySorted (l : List (List Char)) : List (List Char) :=
  List.insertionSort lcLe l

/-- Model of the merged `all_in_one.yar` content built at line 362:
`"\n".join(list(all_imports)) + "\n" * 2 + "\n\n".join(list(sorted(all_yara_rules)))`.
`importsEnum` is `list(all_imports)`: an enumeration of the import set in
Python's unspecified set-iteration order (the code does not sort it). -/
def merged_artifact (importsEnum kept : List (List Char)) : List Char :=
  pyJoin ['\n'] importsEnum ++ "\n\n".toList ++ pyJoin "\n\n".toList (pySorted kept)

/-- Modelled from the spec's words (claim C6): the merged artifact as the
spec describes it, with the import section sorted.  Used only for
refinement comparison against `merged_artifact`. -/
def specMergedArtifact (importsEnum kept : List (List Char)) : List Char :=
  pyJoin ['\n'] (pySorted importsEnum) ++ "\n\n".toList ++
  pyJoin "\n\n".toList (pySorted kept)

/-- The extension filter `f.endswith((".yar", ".yara"))`. -/
def fileTypesOk (f : List Char) : Bool :=
  (".yar".toList).isSuffixOf f || (".yara".toList).isSuffixOf f

/-- The index-eligibility test applied to each walked file's base name at
line 379: `"all_in_one_rules.yar" not in f and f.endswith(file_types)`.
Note the name tested is `all_in_one_rules.yar`, not the merged artifact's
actual name `all_in_one.yar`. -/
def indexEligible (fname : List Char) : Bool :=
  !decide (("all_in_one_rules.yar".toList) <:+: fname) && fileTypesOk fname

/-- Model of the file list built at lines 378-379 from walking the
deduped-rules tree: `walked` is the os.walk output as (root, base name)
pairs in directory-walk order; eligible entries become joined paths. -/
def walkIndexFiles (walked : List (List Char × List Char)) : List (List Char) :=
  (walked.filter (fun rf => indexEligible rf.2)).map (fun rf => rf.1 ++ '/' :: rf.2)

/-- Model of the `index.yar` content written at lines 380-381: one
`include "<path>"` line per eligible walked file. -/
def index_yar_content (walked : List (List Char × List Char)) : List Char :=
  pyJoin ['\n'] ((walkIndexFiles walked).map
    (fun f => "include \"".toList ++ f ++ ['"']))

/-- Contiguous chunks of size `k` (`[l[i:i+k] for i in range(0, len(l), k)]`);
for `k = 0` Python would raise, the model returns `[]` (the caller
guarantees `k ≥ 1` because the file list is nonempty). -/
def chunkAux {α : Type} : Nat → Nat → List α → List (List α)
  | 0, _, _ => []
  | _ + 1, _, [] => []
  | fuel + 1, k, l => if k = 0 then [] else l.take k :: chunkAux fuel k (l.drop k)

/-- Model of the shard computation of `dedupe_threaded` (lines 256-265):
clamp the worker count to the number of files, compute the per-thread chunk
size by integer division, and slice the file list into contiguous chunks of
that size (the remainder forms extra trailing chunks, and the thread count
is then updated to the number of chunks). -/
def shard_files {α : Type} (files : List α) (spin : Nat) : List (List α) :=
  let spin := if files.length ≤ spin then files.length else spin
  let each := files.length / spin
  chunkAux (files.length + 1) each files

/-- Model of the error flow of `write_file` (lines 99-116): the
`io.open` call at line 109 sits outside the `try` block, so an error
raised by it propagates; errors raised inside the `try` (the header and
contents writes) are caught at line 114, reported, and swallowed. -/
def write_file_io (openErr writeErr : Option (List Char)) :
    Except (List Char) Unit :=
  match openErr with
  | some e => Except.error e
  | none =>
    match writeErr with
    | some _ => Except.ok ()
    | none => Except.ok ()

/-- Model of the error flow of one artifact write inside `dedupe`
(lines 214-227, 246): the `os.mkdir` calls are not guarded by any handler,
so a directory-creation error propagates, as does an open error from
`write_file`. -/
def dedupe_write_step (mkdirErr openErr writeErr : Option (List Char)) :
    Except (List Char) Unit :=
  match mkdirErr with
  | some e => Except.error e
  | none => write_file_io openErr writeErr

/-- Model of the error flow of a serial run over many files
(`dedupe_serial`, lines 249-253, catches only `KeyboardInterrupt`): the
first uncaught exception aborts the loop and the remaining files are never
processed.  Each list entry carries the (mkdir, open, write) error channels
of one file's artifact write. -/
def dedupe_io_run :
    List (Option (List Char) × Option (List Char) × Option (List Char)) →
    Except (List Char) Unit
  | [] => Except.ok ()
  | f :: rest =>
    match dedupe_write_step f.1 f.2.1 f.2.2 with
    | Except.error e => Except.error e
    | Except.ok _ => dedupe_io_run rest

/-- Modelled from the spec's words (claim C2 / spec §3 RuleName), for
refinement comparison only: the identifier obtained after stripping a
`private` qualifier, taken up to the first `{`, or up to the first `:`
when colon-separated tags are present. -/
def specRuleNameClaim (r : List Char) : List Char :=
  let s := pyStrip r
  let noPriv := if ("private".toList).isPrefixOf s then pyStrip (s.drop 7) else s
  let beforeBrace := noPriv.takeWhile (fun c => c ≠ braceL)
  if beforeBrace.contains ':' then pyStrip (noPriv.takeWhile (· ≠ ':'))
  else pyStrip beforeBrace

/-- The first line of the stripped block (up to the first line
terminator). -/
def headerLine (r : List Char) : List Char :=
  (pyStrip r).takeWhile (fun c => ! isLineEnd c)

/-- The rule-name computation restated with plain list primitives: the
stripped text of the block's first line before the first `{`; if that text
contains a `:`, the stripped text of the whole block before the first `:`
instead.  (No `private` stripping.) -/
def ruleNamePlain (r : List Char) : List Char :=
  let rn := pyStrip ((pyStrip (headerLine r)).takeWhile (· ≠ braceL))
  if rn.contains ':' then pyStrip (r.takeWhile (· ≠ ':')) else rn

/-- The first-seen-wins selection over a stream of (source file, rule
block) registrations: keep a pair when its rule name has not been seen,
extend the seen set with that name. -/
def firstOccAux (seen : List (List Char)) :
    List (List Char × List Char) → List (List Char × List Char)
  | [] => []
  | p :: rest =>
    if ruleName p.2 ∈ seen then firstOccAux seen rest
    else p :: firstOccAux (seen ++ [ruleName p.2]) rest

/-- The head of a `dropWhile` result never satisfies the predicate. -/
theorem dropWhile_head_not (p : Char → Bool) :
    ∀ (l : List Char) (c : Char) (t : List Char),
      l.dropWhile p = c :: t → p c = false := by
  intro l
  induction l with
  | nil => intro c t h; simp [List.dropWhile] at h
  | cons a l ih =>
    intro c t h
    rw [List.dropWhile_cons] at h
    split at h
    · exact ih _ _ h
    · cases h
      simp_all

/-- `dropWhile` is idempotent. -/
theorem dropWhile_idem (p : Char → Bool) (l : List Char) :
    (l.dropWhile p).dropWhile p = l.dropWhile p := by
  cases h : l.dropWhile p with
  | nil => simp
  | cons c t =>
    rw [List.dropWhile_cons, dropWhile_head_not p l c t h]
    simp

/-- The front of a stripped list is whitespace-free. -/
theorem dropWhile_pyStrip (l : List Char) :
    (pyStrip l).dropWhile isPySpace = pyStrip l := by
  unfold pyStrip
  cases hX : ((l.dropWhile isPySpace).reverse.dropWhile isPySpace).reverse with
  | nil => simp
  | cons c t =>
    have hN : (l.dropWhile isPySpace).reverse.dropWhile isPySpace ≠ [] := by
      intro h
      rw [h] at hX
      simp at hX
    have h1 : ((l.dropWhile isPySpace).reverse.dropWhile isPySpace).getLast? = some c := by
      rw [← List.head?_reverse, hX]
      rfl
    obtain ⟨pre, hpre⟩ := List.dropWhile_suffix
      (l := (l.dropWhile isPySpace).reverse) (p := isPySpace)
    have h2 : (l.dropWhile isPySpace).reverse.getLast? = some c := by
      rw [← hpre, List.getLast?_append_of_ne_nil pre hN, h1]
    have h3 : (l.dropWhile isPySpace).head? = some c := by
      rw [← List.getLast?_reverse, h2]
    have hc : isPySpace c = false := by
      cases hM : l.dropWhile isPySpace with
      | nil => rw [hM] at h3; simp at h3
      | cons m mt =>
        rw [hM] at h3
        simp at h3
        rw [← h3]
        exact dropWhile_head_not isPySpace l m mt hM
    rw [List.dropWhile_cons, hc]
    simp

/-- Python `strip` is idempotent. -/
theorem pyStrip_idem (l : List Char) : pyStrip (pyStrip l) = pyStrip l := by
  have h1 : (pyStrip l).dropWhile isPySpace = pyStrip l := dropWhile_pyStrip l
  show ((((pyStrip l).dropWhile isPySpace).reverse).dropWhile isPySpace).reverse = pyStrip l
  rw [h1]
  show (((((l.dropWhile isPySpace).reverse.dropWhile isPySpace).reverse).reverse).dropWhile
    isPySpace).reverse = pyStrip l
  rw [List.reverse_reverse, dropWhile_idem]
  rfl

/-- A clean rule block is its own `strip`. -/
theorem cleanRule_stripped (r : List Char) : pyStrip (cleanRule r) = cleanRule r := by
  unfold cleanRule
  exact pyStrip_idem _

/-- Splitting a concatenation at a distinguished newline, when neither side
contains a newline of its own. -/
theorem nl_split :
    ∀ (a b x y : List Char), '\n' ∉ a → '\n' ∉ b →
      a ++ '\n' :: x = b ++ '\n' :: y → a = b ∧ x = y := by
  intro a
  induction a with
  | nil =>
    intro b x y _ hb h
    cases b with
    | nil => simp at h; exact ⟨rfl, h⟩
    | cons d b =>
      simp at h
      exact absurd (h.1 ▸ List.mem_cons_self d b) hb
  | cons c a ih =>
    intro b x y ha hb h
    cases b with
    | nil =>
      simp at h
      exact absurd (h.1 ▸ List.mem_cons_self c a) ha
    | cons d b =>
      simp at h
      obtain ⟨hcd, h2⟩ := h
      have := ih b x y (fun m => ha (List.mem_cons_of_mem c m))
        (fun m => hb (List.mem_cons_of_mem d m)) h2
      exact ⟨by rw [hcd, this.1], this.2⟩

/-- The provenance annotation determines the source file and the stripped
rule text, provided file paths contain no newline. -/
theorem annot_inj {yf1 r1 yf2 r2 : List Char}
    (h1 : '\n' ∉ yf1) (h2 : '\n' ∉ yf2)
    (e : annot yf1 r1 = annot yf2 r2) :
    yf1 = yf2 ∧ pyStrip r1 = pyStrip r2 := by
  unfold annot at e
  have e2 : yf1 ++ '\n' :: (pyStrip r1 ++ ['\n']) = yf2 ++ '\n' :: (pyStrip r2 ++ ['\n']) :=
    @List.append_cancel_left Char ("\n// rule from: ".toList) _ _
      (by simpa [List.append_assoc] using e)
  obtain ⟨hyf, hx⟩ := nl_split _ _ _ _ h1 h2 e2
  exact ⟨hyf, @List.append_cancel_right Char _ (['\n']) _ hx⟩

/-- `pySplit` never returns the empty list of fields. -/
theorem pySplit_ne_nil (c : Char) (l : List Char) : pySplit c l ≠ [] := by
  induction l with
  | nil => simp [pySplit]
  | cons a t ih =>
    show (match pySplit c t with
      | f :: fs => if a = c then [] :: f :: fs else (a :: f) :: fs
      | [] => [[a]]) ≠ []
    cases h : pySplit c t with
    | nil => simp
    | cons f fs =>
      by_cases hac : a = c <;> simp [hac]

/-- The first field of Python `split` is the text before the first
occurrence of the separator. -/
theorem pySplit_head (c : Char) (l : List Char) :
    (pySplit c l).headD [] = l.takeWhile (· ≠ c) := by
  induction l with
  | nil => rfl
  | cons a t ih =>
    show (match pySplit c t with
      | f :: fs => if a = c then [] :: f :: fs else (a :: f) :: fs
      | [] => [[a]]).headD [] = (a :: t).takeWhile (· ≠ c)
    cases h : pySplit c t with
    | nil => exact absurd h (pySplit_ne_nil c t)
    | cons f fs =>
      rw [h] at ih
      simp only [List.headD_cons] at ih
      by_cases hac : a = c
      · subst hac
        simp [List.takeWhile_cons]
      · simp [hac, List.takeWhile_cons, ih]

/-- The first component of Python `partition` is the text before the first
occurrence of the separator. -/
theorem pyPartition_fst (c : Char) (l : List Char) :
    (pyPartition c l).1 = l.takeWhile (· ≠ c) := by
  induction l with
  | nil => rfl
  | cons a t ih =>
    by_cases hac : a = c
    · subst hac
      simp [pyPartition, List.takeWhile_cons]
    · simp [pyPartition, hac, List.takeWhile_cons, ih]

/-- The folded `splitlines` state: the current-line component is the text
before the first line terminator, and the neighbour component is the head
of the remaining text. -/
theorem splitlines_state (l : List Char) :
    (l.foldr splitlinesStep ([], [], none)).2.1 =
      l.takeWhile (fun c => ! isLineEnd c) ∧
    (l.foldr splitlinesStep ([], [], none)).2.2 = l.head? := by
  induction l with
  | nil => exact ⟨rfl, rfl⟩
  | cons a t ih =>
    obtain ⟨ih1, ih2⟩ := ih
    rcases hst : t.foldr splitlinesStep ([], [], none) with ⟨lines, cur, rn⟩
    rw [hst] at ih1 ih2
    dsimp only at ih1 ih2
    have hfold : (a :: t).foldr splitlinesStep ([], [], none) =
        splitlinesStep a (lines, cur, rn) := by
      rw [List.foldr_cons, hst]
    rw [hfold]
    unfold splitlinesStep
    dsimp only
    by_cases hr : a = '\r' ∧ rn = some '\n'
    · rw [if_pos hr]
      obtain ⟨ha, hrn⟩ := hr
      have ht : t.takeWhile (fun c => ! isLineEnd c) = [] := by
        cases t with
        | nil => rfl
        | cons b t2 =>
          have hb : b = '\n' := by
            rw [hrn] at ih2
            simpa using ih2.symm
          simp [List.takeWhile_cons, hb, isLineEnd]
      refine ⟨?_, rfl⟩
      rw [ih1, ht, List.takeWhile_cons]
      simp [ha, isLineEnd]
    · rw [if_neg hr]
      by_cases hle : isLineEnd a
      · rw [if_pos hle]
        by_cases hrn : rn = none
        · rw [if_pos hrn]
          have ht : t = [] := by
            rw [hrn] at ih2
            exact List.head?_eq_none_iff.mp ih2.symm
          subst ht
          refine ⟨?_, rfl⟩
          rw [ih1]
          simp [List.takeWhile_cons, hle]
        · rw [if_neg hrn]
          exact ⟨by simp [List.takeWhile_cons, hle], rfl⟩
      · rw [if_neg hle]
        exact ⟨by simp [List.takeWhile_cons, hle, ih1], rfl⟩

/-- The first line produced by Python `splitlines` is the text before the
first line terminator. -/
theorem pySplitlines_head (l : List Char) :
    (pySplitlines l).headD [] = l.takeWhile (fun c => ! isLineEnd c) := by
  cases l with
  | nil => rfl
  | cons a t =>
    have h : pySplitlines (a :: t) =
        ((a :: t).foldr splitlinesStep ([], [], none)).2.1 ::
        ((a :: t).foldr splitlinesStep ([], [], none)).1 := rfl
    rw [h, List.headD_cons]
    exact (splitlines_state (a :: t)).1

/-- The rule-name computation via `splitlines` / `partition` / `split`
agrees with its plain description via `takeWhile`. -/
theorem ruleName_eq_plain (r : List Char) : ruleName r = ruleNamePlain r := by
  simp only [ruleName, ruleNamePlain, headerLine, pySplitlines_head,
    pyPartition_fst, pySplit_head]

/-- Concatenation with the empty separator is `flatten`. -/
theorem pyJoin_nil_flatten (L : List (List Char)) : pyJoin [] L = L.flatten := by
  induction L with
  | nil => rfl
  | cons x rest ih =>
    cases rest with
    | nil => simp [pyJoin]
    | cons y rs =>
      simp only [pyJoin, List.flatten_cons] at ih ⊢
      rw [ih]
      simp

/-- Every comment match returned by the scanner begins with a block- or
line-comment opener. -/
theorem commentMatch_opens (fuel : Nat) (atLS : Bool) (l m rest : List Char)
    (h : commentMatch fuel atLS l = some (m, rest)) :
    ("/*".toList).isPrefixOf m ∨ ("//".toList).isPrefixOf m := by
  unfold commentMatch at h
  split at h
  · cases hb : blockScanAux fuel (l.drop 2) with
    | none => rw [hb] at h; simp at h
    | some p =>
      rw [hb] at h
      simp at h
      left
      rw [← h.1]
      simp [List.isPrefixOf]
  · split at h
    · simp at h
      right
      rw [← h.1]
      simp [List.isPrefixOf]
    · simp at h

/-- Every full match produced by the comment scanner begins with `/*` or
`//`. -/
theorem comment_scan_opens :
    ∀ (fuel : Nat) (atLS : Bool) (l : List Char), ∀ m ∈ commentScanAux fuel atLS l,
      ("/*".toList).isPrefixOf m ∨ ("//".toList).isPrefixOf m := by
  intro fuel
  induction fuel with
  | zero => intro atLS l m hm; simp [commentScanAux] at hm
  | succ fuel ih =>
    intro atLS l m hm
    cases l with
    | nil => simp [commentScanAux] at hm
    | cons c rest =>
      unfold commentScanAux at hm
      cases hcm : commentMatch (fuel + 1) atLS (c :: rest) with
      | none =>
        rw [hcm] at hm
        exact ih _ _ _ hm
      | some p =>
        rw [hcm] at hm
        rcases List.mem_cons.mp hm with h1 | h2
        · exact h1 ▸ commentMatch_opens _ _ _ _ _ (by rw [hcm])
        · exact ih _ _ _ h2

/-- Stripping preserves a two-character non-whitespace prefix. -/
theorem pyStrip_two (a b : Char) (t : List Char)
    (ha : isPySpace a = false) (hb : isPySpace b = false) :
    pyStrip (a :: b :: t) = a :: b :: (t.reverse.dropWhile isPySpace).reverse := by
  unfold pyStrip
  rw [List.dropWhile_cons, ha]
  simp only [Bool.false_eq_true, if_false]
  have hrev : (a :: b :: t).reverse = t.reverse ++ [b, a] := by
    simp
  rw [hrev, List.dropWhile_append]
  split
  · rw [List.dropWhile_cons, hb]
    simp only [Bool.false_eq_true, if_false]
    rename_i hemp
    simp only [List.isEmpty_iff] at hemp
    rw [hemp]
    simp
  · simp

/-- A comment match passes the `startswith(("/*", "//"))` filter. -/
theorem startsCommentTok_of_opens (m : List Char)
    (h : ("/*".toList).isPrefixOf m ∨ ("//".toList).isPrefixOf m) :
    startsCommentTok m = true := by
  have hsl : ("/*".toList) = ['/', '*'] := rfl
  have hll : ("//".toList) = ['/', '/'] := rfl
  unfold startsCommentTok
  rcases h with h | h
  · rw [hsl] at h
    obtain ⟨t, ht⟩ := List.isPrefixOf_iff_prefix.mp h
    have hm : m = '/' :: '*' :: t := by rw [← ht]; rfl
    subst hm
    rw [pyStrip_two '/' '*' t (by decide) (by decide)]
    rw [hsl]
    simp [List.isPrefixOf]
  · rw [hll] at h
    obtain ⟨t, ht⟩ := List.isPrefixOf_iff_prefix.mp h
    have hm : m = '/' :: '/' :: t := by rw [← ht]; rfl
    subst hm
    rw [pyStrip_two '/' '/' t (by decide) (by decide)]
    rw [hll]
    simp [List.isPrefixOf]

/-- The value of `extract` on decodable, nonempty content with at least one
rule match and at least one comment match. -/
theorem extract_some_spec (content : List Char) (hc : content ≠ [])
    (hys : rules_scan content ≠ []) (hraw : comment_scan content ≠ []) :
    extract (some content) =
      ⟨some (import_scan content),
       some (((rules_scan content).map cleanRule).filter
         (fun x => ! decide (x <:+: pyJoin []
           ((comment_scan content).filter startsCommentTok)))),
       some ((comment_scan content).filter startsCommentTok)⟩ := by
  unfold extract
  dsimp only
  rw [if_neg hc, if_neg hys, if_neg hraw]

/-- The value of `extract` when no comment matches. -/
theorem extract_some_nocomment (content : List Char) (hc : content ≠ [])
    (hys : rules_scan content ≠ []) (hraw : comment_scan content = []) :
    extract (some content) =
      ⟨some (import_scan content), some ((rules_scan content).map cleanRule),
       some []⟩ := by
  unfold extract
  dsimp only
  rw [if_neg hc, if_neg hys, if_pos hraw, hraw]

/-- The value of `extract` when no rule block matches: imports and
comments are not even scanned. -/
theorem extract_some_norules (content : List Char) (hc : content ≠ [])
    (hys : rules_scan content = []) :
    extract (some content) = ⟨some [], some [], some []⟩ := by
  unfold extract
  dsimp only
  rw [if_neg hc, if_pos hys, hys]

/-- Every rule text returned by `extract` is its own `strip`. -/
theorem extract_rules_stripped (d : Option (List Char)) :
    ∀ r ∈ (extract d).rules.getD [], pyStrip r = r := by
  intro r hr
  match d with
  | none => simp [extract] at hr
  | some c =>
    by_cases hc : c = []
    · subst hc; simp [extract] at hr
    · by_cases hys : rules_scan c = []
      · rw [extract_some_norules c hc hys] at hr
        simp at hr
      · by_cases hraw : comment_scan c = []
        · rw [extract_some_nocomment c hc hys hraw] at hr
          simp only [Option.getD_some] at hr
          obtain ⟨m, _, hm⟩ := List.mem_map.mp hr
          rw [← hm]
          exact cleanRule_stripped m
        · rw [extract_some_spec c hc hys hraw] at hr
          simp only [Option.getD_some] at hr
          have hr2 := List.mem_of_mem_filter hr
          obtain ⟨m, _, hm⟩ := List.mem_map.mp hr2
          rw [← hm]
          exact cleanRule_stripped m

/-- A rule block whose text occurs inside one of the matched comment
blocks does not survive the post-filter of `extract`. -/
theorem extract_filters_commented (content x c : List Char)
    (hx : x ∈ (rules_scan content).map cleanRule)
    (hcm : c ∈ comment_scan content) (hinf : x <:+: c) :
    x ∉ ((extract (some content)).rules.getD []) := by
  intro hmem
  have hc0 : content ≠ [] := by
    intro h
    subst h
    simp [comment_scan, commentScanAux] at hcm
  have hys : rules_scan content ≠ [] := by
    intro h
    rw [h] at hx
    simp at hx
  have hraw : comment_scan content ≠ [] := List.ne_nil_of_mem hcm
  rw [extract_some_spec content hc0 hys hraw] at hmem
  simp only [Option.getD_some] at hmem
  have hpred := List.of_mem_filter hmem
  have hckept : c ∈ (comment_scan content).filter startsCommentTok :=
    List.mem_filter.mpr ⟨hcm,
      startsCommentTok_of_opens c (comment_scan_opens _ _ _ c hcm)⟩
  have hflat : c <:+: pyJoin [] ((comment_scan content).filter startsCommentTok) := by
    rw [pyJoin_nil_flatten]
    exact List.infix_of_mem_flatten hckept
  have : x <:+: pyJoin [] ((comment_scan content).filter startsCommentTok) :=
    hinf.trans hflat
  simp [this] at hpred

/-- The rule name of a registration pair. -/
def pairName (q : List Char × List Char) : List Char := ruleName q.2

/-- The annotated kept-rule text of a registration pair. -/
def pairAnnot (q : List Char × List Char) : List Char := annot q.1 q.2

/-- `insertSet` keeps existing members. -/
theorem insertSet_mem (l : List (List Char)) (x y : List Char) (h : y ∈ l) :
    y ∈ insertSet l x := by
  unfold insertSet
  split
  · exact h
  · exact List.mem_append_left _ h

/-- `insertSet` contains the inserted element. -/
theorem insertSet_self (l : List (List Char)) (x : List Char) :
    x ∈ insertSet l x := by
  unfold insertSet
  split
  · assumption
  · simp

/-- Inserting a fresh element appends it. -/
theorem insertSet_append (l : List (List Char)) (x : List Char) (h : x ∉ l) :
    insertSet l x = l ++ [x] := by
  unfold insertSet
  rw [if_neg h]

/-- Folding `insertSet` preserves membership. -/
theorem mem_foldl_insertSet_of_mem (imps : List (List Char)) :
    ∀ (acc : List (List Char)) (x : List Char), x ∈ acc →
      x ∈ imps.foldl insertSet acc := by
  induction imps with
  | nil => intro acc x h; exact h
  | cons i rest ih =>
    intro acc x h
    exact ih _ x (insertSet_mem acc i x h)

/-- Every folded-in element is a member of the resulting set. -/
theorem mem_foldl_insertSet (imps : List (List Char)) :
    ∀ (acc : List (List Char)) (x : List Char), x ∈ imps →
      x ∈ imps.foldl insertSet acc := by
  induction imps with
  | nil => intro acc x h; simp at h
  | cons i rest ih =>
    intro acc x h
    rcases List.mem_cons.mp h with h1 | h2
    · subst h1
      exact mem_foldl_insertSet_of_mem rest _ x (insertSet_self acc x)
    · exact ih _ x h2

/-- Explicit form of the registration state transition. -/
theorem processRulePair_spec (s : DState) (p : List Char × List Char) :
    processRulePair s p =
      if pairName p ∈ s.rule_names then
        { s with rule_dict := dictAppend s.rule_dict (pairName p) p.1,
                 total_duplicate_rules := s.total_duplicate_rules + 1 }
      else
        { s with rule_dict := dictAppend s.rule_dict (pairName p) p.1,
                 rule_names := insertSet s.rule_names (pairName p),
                 all_yara_rules := insertSet s.all_yara_rules (pairAnnot p) } := by
  unfold processRulePair processRuleAcc pairName pairAnnot
  dsimp only
  split <;> rfl

/-- The state transition of one registration, independent of the output
buffer. -/
theorem processRuleAcc_fst (yf : List Char) (s : DState) (d r : List Char) :
    (processRuleAcc yf s d r).1 = processRulePair s (yf, r) := by
  unfold processRulePair processRuleAcc
  dsimp only
  split <;> rfl

/-- Registration never touches the import set. -/
theorem foldl_pairs_imports (ps : List (List Char × List Char)) :
    ∀ s : DState, (ps.foldl processRulePair s).all_imports = s.all_imports := by
  induction ps with
  | nil => intro s; rfl
  | cons p rest ih =>
    intro s
    rw [List.foldl_cons, ih, processRulePair_spec]
    split <;> rfl

/-- Registration never touches the seen-rule counter. -/
theorem foldl_pairs_total (ps : List (List Char × List Char)) :
    ∀ s : DState, (ps.foldl processRulePair s).total_rules = s.total_rules := by
  induction ps with
  | nil => intro s; rfl
  | cons p rest ih =>
    intro s
    rw [List.foldl_cons, ih, processRulePair_spec]
    split <;> rfl

/-- The first-seen selection never keeps more pairs than it is given. -/
theorem firstOccAux_length_le :
    ∀ (ps : List (List Char × List Char)) (seen : List (List Char)),
      (firstOccAux seen ps).length ≤ ps.length := by
  intro ps
  induction ps with
  | nil => intro seen; simp [firstOccAux]
  | cons p rest ih =>
    intro seen
    unfold firstOccAux
    split
    · exact Nat.le_succ_of_le (ih seen)
    · simpa using ih (seen ++ [ruleName p.2])

/-- Every kept pair comes from the input stream. -/
theorem firstOccAux_subset :
    ∀ (ps : List (List Char × List Char)) (seen : List (List Char)) (q : List Char × List Char),
      q ∈ firstOccAux seen ps → q ∈ ps := by
  intro ps
  induction ps with
  | nil => intro seen q h; simp [firstOccAux] at h
  | cons p rest ih =>
    intro seen q h
    unfold firstOccAux at h
    split at h
    · exact List.mem_cons_of_mem p (ih _ q h)
    · rcases List.mem_cons.mp h with h1 | h2
      · exact h1 ▸ List.mem_cons_self p rest
      · exact List.mem_cons_of_mem p (ih _ q h2)

/-- The kept pairs carry pairwise-distinct rule names, none of which was
already seen. -/
theorem firstOccAux_names_nodup :
    ∀ (ps : List (List Char × List Char)) (seen : List (List Char)),
      ((firstOccAux seen ps).map pairName).Nodup ∧
      (∀ n ∈ (firstOccAux seen ps).map pairName, n ∉ seen) := by
  intro ps
  induction ps with
  | nil => intro seen; simp [firstOccAux]
  | cons p rest ih =>
    intro seen
    unfold firstOccAux
    split
    · exact ih seen
    · rename_i hfresh
      obtain ⟨ihn, ihs⟩ := ih (seen ++ [ruleName p.2])
      constructor
      · rw [List.map_cons, List.nodup_cons]
        refine ⟨fun hin => ?_, ihn⟩
        have h1 := ihs (pairName p) hin
        exact h1 (List.mem_append_right seen (by simp [pairName]))
      · intro n hn
        rw [List.map_cons, List.mem_cons] at hn
        rcases hn with h1 | h2
        · subst h1
          simpa [pairName] using hfresh
        · intro hns
          exact ihs n h2 (List.mem_append_left _ hns)

/-- Every name in the stream is either already seen or represented among
the kept pairs. -/
theorem firstOccAux_complete :
    ∀ (ps : List (List Char × List Char)) (seen : List (List Char))
      (p : List Char × List Char), p ∈ ps →
      pairName p ∈ seen ∨ pairName p ∈ (firstOccAux seen ps).map pairName := by
  intro ps
  induction ps with
  | nil => intro seen p h; simp at h
  | cons q rest ih =>
    intro seen p hp
    unfold firstOccAux
    split
    · rename_i hseen
      rcases List.mem_cons.mp hp with h1 | h2
      · left; exact h1 ▸ (by simpa [pairName] using hseen)
      · exact ih seen p h2
    · rcases List.mem_cons.mp hp with h1 | h2
      · right
        rw [List.map_cons, List.mem_cons]
        left
        rw [h1]
      · rcases ih (seen ++ [ruleName q.2]) p h2 with h3 | h3
        · rcases List.mem_append.mp h3 with h4 | h4
          · left; exact h4
          · right
            rw [List.map_cons, List.mem_cons]
            left
            simpa [pairName] using h4
        · right
          rw [List.map_cons, List.mem_cons]
          right
          exact h3

/-- Unfolding equation of `firstOccAux` on a cons. -/
theorem firstOccAux_cons (seen : List (List Char)) (p : List Char × List Char)
    (rest : List (List Char × List Char)) :
    firstOccAux seen (p :: rest) =
      if ruleName p.2 ∈ seen then firstOccAux seen rest
      else p :: firstOccAux (seen ++ [ruleName p.2]) rest := rfl

/-- Characterization of a fold of registrations: starting from a state
whose registry holds exactly the pairs `acc`, the registry afterwards holds
`acc` plus the first occurrence of every fresh rule name in `pairs`, and the
duplicate counter grows by the number of rejected pairs.  File paths are
assumed newline-free and rule texts stripped (both hold for the data the
script feeds in). -/
theorem registerAll_fold :
    ∀ (pairs : List (List Char × List Char)) (st : DState)
      (acc : List (List Char × List Char)),
      st.all_yara_rules = acc.map pairAnnot →
      st.rule_names = acc.map pairName →
      (∀ q ∈ acc, '\n' ∉ q.1 ∧ pyStrip q.2 = q.2) →
      (∀ q ∈ pairs, '\n' ∉ q.1 ∧ pyStrip q.2 = q.2) →
      (pairs.foldl processRulePair st).all_yara_rules =
        (acc ++ firstOccAux (acc.map pairName) pairs).map pairAnnot ∧
      (pairs.foldl processRulePair st).rule_names =
        (acc ++ firstOccAux (acc.map pairName) pairs).map pairName ∧
      (pairs.foldl processRulePair st).total_duplicate_rules =
        st.total_duplicate_rules +
          (pairs.length - (firstOccAux (acc.map pairName) pairs).length) ∧
      (pairs.foldl processRulePair st).total_rules = st.total_rules := by
  intro pairs
  induction pairs with
  | nil =>
    intro st acc h1 h2 hacc hwf
    refine ⟨?_, ?_, ?_, rfl⟩ <;> simp [firstOccAux, h1, h2]
  | cons p rest ih =>
    intro st acc h1 h2 hacc hwf
    have hwfp := hwf p (List.mem_cons_self p rest)
    have hwfr : ∀ q ∈ rest, '\n' ∉ q.1 ∧ pyStrip q.2 = q.2 :=
      fun q hq => hwf q (List.mem_cons_of_mem p hq)
    rw [List.foldl_cons, processRulePair_spec]
    by_cases hmem : pairName p ∈ acc.map pairName
    · rw [if_pos (by rw [h2]; exact hmem)]
      have hfo : firstOccAux (acc.map pairName) (p :: rest) =
          firstOccAux (acc.map pairName) rest := by
        rw [firstOccAux_cons, if_pos (by simpa [pairName] using hmem)]
      obtain ⟨c1, c2, c3, c4⟩ :=
        ih { st with rule_dict := dictAppend st.rule_dict (pairName p) p.1,
                     total_duplicate_rules := st.total_duplicate_rules + 1 }
          acc h1 h2 hacc hwfr
      rw [hfo]
      have hle := firstOccAux_length_le rest (acc.map pairName)
      refine ⟨c1, c2, ?_, c4⟩
      rw [c3]
      show st.total_duplicate_rules + 1 +
          (rest.length - (firstOccAux (acc.map pairName) rest).length) =
        st.total_duplicate_rules +
          ((p :: rest).length - (firstOccAux (acc.map pairName) rest).length)
      rw [List.length_cons]
      omega
    · rw [if_neg (by rw [h2]; exact hmem)]
      have hfreshAnnot : pairAnnot p ∉ acc.map pairAnnot := by
        intro hin
        obtain ⟨q, hq, he⟩ := List.mem_map.mp hin
        obtain ⟨hq1, hq2⟩ := annot_inj (hacc q hq).1 hwfp.1 he
        have hq3 : q.2 = p.2 := by rw [← (hacc q hq).2, ← hwfp.2]; exact hq2
        apply hmem
        rw [show pairName p = pairName q from by simp [pairName, hq3]]
        exact List.mem_map_of_mem pairName hq
      have hnames : insertSet st.rule_names (pairName p) = (acc ++ [p]).map pairName := by
        rw [h2, insertSet_append _ _ hmem, List.map_append]
        simp
      have hkept : insertSet st.all_yara_rules (pairAnnot p) =
          (acc ++ [p]).map pairAnnot := by
        rw [h1, insertSet_append _ _ hfreshAnnot, List.map_append]
        simp
      have hacc2 : ∀ q ∈ acc ++ [p], '\n' ∉ q.1 ∧ pyStrip q.2 = q.2 := by
        intro q hq
        rcases List.mem_append.mp hq with h | h
        · exact hacc q h
        · rw [List.mem_singleton.mp h]
          exact hwfp
      obtain ⟨c1, c2, c3, c4⟩ :=
        ih { st with rule_dict := dictAppend st.rule_dict (pairName p) p.1,
                     rule_names := insertSet st.rule_names (pairName p),
                     all_yara_rules := insertSet st.all_yara_rules (pairAnnot p) }
          (acc ++ [p]) hkept hnames hacc2 hwfr
      have hfo : firstOccAux (acc.map pairName) (p :: rest) =
          p :: firstOccAux ((acc ++ [p]).map pairName) rest := by
        rw [firstOccAux_cons, if_neg (by simpa [pairName] using hmem)]
        congr 2
        simp [pairName]
      rw [hfo]
      have hle := firstOccAux_length_le rest ((acc ++ [p]).map pairName)
      refine ⟨?_, ?_, ?_, c4⟩
      · rw [c1]
        congr 1
        simp [List.append_assoc]
      · rw [c2]
        congr 1
        simp [List.append_assoc]
      · rw [c3]
        show st.total_duplicate_rules +
            (rest.length - (firstOccAux ((acc ++ [p]).map pairName) rest).length) =
          st.total_duplicate_rules +
            ((p :: rest).length -
              (p :: firstOccAux ((acc ++ [p]).map pairName) rest).length)
        rw [List.length_cons, List.length_cons]
        omega

/-- The state component of the buffered rule loop equals the fold of the
plain registration step over the (file, rule) pairs. -/
theorem foldl_acc_fst (yf : List Char) (rs : List (List Char)) :
    ∀ (sd : DState × List Char),
      (rs.foldl (fun sd r => processRuleAcc yf sd.1 sd.2 r) sd).1 =
        (rs.map (fun r => (yf, r))).foldl processRulePair sd.1 := by
  induction rs with
  | nil => intro sd; rfl
  | cons r rest ih =>
    intro sd
    rw [List.foldl_cons, List.map_cons, List.foldl_cons]
    rw [ih (processRuleAcc yf sd.1 sd.2 r)]
    rw [processRuleAcc_fst]

/-- A falsy optional list has an empty `getD`. -/
theorem optFalsy_getD (o : Option (List (List Char))) (h : optFalsy o = true) :
    o.getD [] = [] := by
  cases o with
  | none => rfl
  | some l =>
    simp [optFalsy, List.isEmpty_iff] at h
    simp [h]

/-- Bridge between `processFile` and the registration fold: the resulting
state is the fold of the registration step over this file's (file, rule)
pairs, started from an intermediate state that differs from the input only
in the import set and the seen-rule counter. -/
theorem processFile_state (s : DState) (yf : List Char) (d : Option (List Char)) :
    ∃ s1 : DState,
      s1.all_yara_rules = s.all_yara_rules ∧
      s1.rule_names = s.rule_names ∧
      s1.total_duplicate_rules = s.total_duplicate_rules ∧
      s1.total_rules = s.total_rules + ((extract d).rules.getD []).length ∧
      s1.all_imports = (if ((extract d).imports.getD []).isEmpty then s.all_imports
        else ((extract d).imports.getD []).foldl insertSet s.all_imports) ∧
      (processFile s yf d).1 =
        (((extract d).rules.getD []).map (fun r => (yf, r))).foldl processRulePair s1 := by
  unfold processFile
  by_cases hg : (optFalsy (extract d).imports && optFalsy (extract d).rules &&
      optFalsy (extract d).comments) = true
  · rw [if_pos hg]
    rcases Bool.and_eq_true_iff.mp hg with ⟨hg1, _⟩
    rcases Bool.and_eq_true_iff.mp hg1 with ⟨hi, hr⟩
    refine ⟨s, rfl, rfl, rfl, ?_, ?_, ?_⟩
    · rw [optFalsy_getD _ hr]; rfl
    · rw [optFalsy_getD _ hi]; rfl
    · rw [optFalsy_getD _ hr]; rfl
  · rw [if_neg hg]
    dsimp only
    by_cases hrs : ((extract d).rules.getD []).isEmpty = true
    · rw [if_pos hrs]
      dsimp only
      refine ⟨if ((extract d).imports.getD []).isEmpty then s
        else { s with all_imports := ((extract d).imports.getD []).foldl insertSet s.all_imports },
        ?_, ?_, ?_, ?_, ?_, ?_⟩
      · split <;> rfl
      · split <;> rfl
      · split <;> rfl
      · rw [List.isEmpty_iff.mp hrs]
        split <;> simp
      · split <;> simp_all
      · rw [List.isEmpty_iff.mp hrs]
        dsimp only [List.map_nil, List.foldl_nil]
    · rw [if_neg hrs]
      dsimp only
      rw [foldl_acc_fst]
      refine ⟨_, ?_, ?_, ?_, ?_, ?_, rfl⟩
      · split <;> rfl
      · split <;> rfl
      · split <;> rfl
      · split <;> rfl
      · split <;> simp_all

/-- The state component of a serial run is the fold of the per-file state
transition. -/
theorem runDedupe_fst (files : List (List Char × Option (List Char))) :
    (runDedupe files).1 =
      files.foldl (fun s f => (processFile s f.1 f.2).1) st0 := by
  unfold runDedupe
  suffices h : ∀ (fs : List (List Char × Option (List Char)))
      (s : DState) (arts : List Artifact),
      (fs.foldl (fun acc f =>
        let r := processFile acc.1 f.1 f.2
        (r.1, acc.2 ++ r.2)) (s, arts)).1 =
      fs.foldl (fun s f => (processFile s f.1 f.2).1) s from h files st0 []
  intro fs
  induction fs with
  | nil => intro s arts; rfl
  | cons f rest ih =>
    intro s arts
    rw [List.foldl_cons, List.foldl_cons]
    exact ih _ _

/-- Run invariant: after any serial run over newline-free file paths, the
registry holds exactly one annotated entry per registered pair of some
accumulated first-occurrence list, and the counters balance. -/
theorem runDedupe_inv (files : List (List Char × Option (List Char))) :
    ∀ (s : DState) (acc : List (List Char × List Char)),
      (∀ f ∈ files, '\n' ∉ f.1) →
      s.all_yara_rules = acc.map pairAnnot →
      s.rule_names = acc.map pairName →
      (∀ q ∈ acc, '\n' ∉ q.1 ∧ pyStrip q.2 = q.2) →
      s.total_rules = s.all_yara_rules.length + s.total_duplicate_rules →
      ∃ acc2 : List (List Char × List Char),
        (files.foldl (fun s f => (processFile s f.1 f.2).1) s).all_yara_rules =
          acc2.map pairAnnot ∧
        (files.foldl (fun s f => (processFile s f.1 f.2).1) s).rule_names =
          acc2.map pairName ∧
        (∀ q ∈ acc2, '\n' ∉ q.1 ∧ pyStrip q.2 = q.2) ∧
        (files.foldl (fun s f => (processFile s f.1 f.2).1) s).total_rules =
          (files.foldl (fun s f => (processFile s f.1 f.2).1) s).all_yara_rules.length +
          (files.foldl (fun s f => (processFile s f.1 f.2).1) s).total_duplicate_rules := by
  induction files with
  | nil =>
    intro s acc hnl h1 h2 hacc hbal
    exact ⟨acc, h1, h2, hacc, hbal⟩
  | cons f rest ih =>
    intro s acc hnl h1 h2 hacc hbal
    rw [List.foldl_cons]
    obtain ⟨s1, e1, e2, e3, e4, _, efold⟩ := processFile_state s f.1 f.2
    set rs := (extract f.2).rules.getD [] with hrs
    set pairs := rs.map (fun r => (f.1, r)) with hpairs
    have hwfpairs : ∀ q ∈ pairs, '\n' ∉ q.1 ∧ pyStrip q.2 = q.2 := by
      intro q hq
      rw [hpairs] at hq
      obtain ⟨r, hr, hqr⟩ := List.mem_map.mp hq
      rw [← hqr]
      exact ⟨hnl f (List.mem_cons_self f rest), extract_rules_stripped f.2 r hr⟩
    obtain ⟨c1, c2, c3, c4⟩ := registerAll_fold pairs s1 acc
      (by rw [e1, h1]) (by rw [e2, h2]) hacc hwfpairs
    have hsub : ∀ q ∈ acc ++ firstOccAux (acc.map pairName) pairs,
        '\n' ∉ q.1 ∧ pyStrip q.2 = q.2 := by
      intro q hq
      rcases List.mem_append.mp hq with h | h
      · exact hacc q h
      · exact hwfpairs q (firstOccAux_subset pairs _ q h)
    have hlen : (firstOccAux (acc.map pairName) pairs).length ≤ pairs.length :=
      firstOccAux_length_le pairs _
    have hbal2 : ((processFile s f.1 f.2).1).total_rules =
        ((processFile s f.1 f.2).1).all_yara_rules.length +
        ((processFile s f.1 f.2).1).total_duplicate_rules := by
      rw [efold, c1, c3, c4, e3, e4]
      rw [List.length_map, List.length_append]
      have hkl : s.all_yara_rules.length = acc.length := by
        rw [h1, List.length_map]
      rw [hkl] at hbal
      have hpl : pairs.length = rs.length := by rw [hpairs, List.length_map]
      omega
    refine ih ((processFile s f.1 f.2).1) (acc ++ firstOccAux (acc.map pairName) pairs)
      (fun g hg => hnl g (List.mem_cons_of_mem f hg))
      (by rw [efold, c1]) (by rw [efold, c2]) hsub hbal2

/-- The state reached by the serial run, characterized. -/
theorem runDedupe_balanced (files : List (List Char × Option (List Char)))
    (hnl : ∀ f ∈ files, '\n' ∉ f.1) :
    (runDedupe files).1.total_rules =
      (runDedupe files).1.all_yara_rules.length +
      (runDedupe files).1.total_duplicate_rules := by
  rw [runDedupe_fst]
  obtain ⟨acc2, _, _, _, hbal⟩ := runDedupe_inv files st0 [] hnl rfl rfl
    (by intro q hq; simp at hq) rfl
  exact hbal

/-- The string order is total. -/
theorem lcLeB_total : ∀ a b : List Char, lcLeB a b = true ∨ lcLeB b a = true := by
  intro a
  induction a with
  | nil => intro b; left; rfl
  | cons x as ih =>
    intro b
    cases b with
    | nil => right; rfl
    | cons y bs =>
      by_cases hxy : x = y
      · subst hxy
        simpa [lcLeB] using ih bs
      · rcases lt_trichotomy x y with h | h | h
        · left; simp [lcLeB, hxy, h]
        · exact absurd h hxy
        · right; simp [lcLeB, Ne.symm hxy, h]

/-- The string order is transitive. -/
theorem lcLeB_trans : ∀ a b c : List Char,
    lcLeB a b = true → lcLeB b c = true → lcLeB a c = true := by
  intro a
  induction a with
  | nil => intro b c _ _; rfl
  | cons x as ih =>
    intro b c hab hbc
    cases b with
    | nil => simp [lcLeB] at hab
    | cons y bs =>
      cases c with
      | nil => simp [lcLeB] at hbc
      | cons z cs =>
        by_cases hxy : x = y <;> by_cases hyz : y = z
        · subst hxy; subst hyz
          simp only [lcLeB, if_pos rfl] at hab hbc ⊢
          exact ih bs cs hab hbc
        · subst hxy
          simp only [lcLeB, if_pos rfl, if_neg hyz] at hbc ⊢
          exact hbc
        · subst hyz
          simp only [lcLeB, if_pos rfl, if_neg hxy] at hab ⊢
          exact hab
        · simp only [lcLeB, if_neg hxy, if_neg hyz] at hab hbc
          have h1 : x < y := by simpa using hab
          have h2 : y < z := by simpa using hbc
          have hxz : x ≠ z := ne_of_lt (h1.trans h2)
          simp [lcLeB, hxz, h1.trans h2]

/-- The string order is antisymmetric. -/
theorem lcLeB_antisymm : ∀ a b : List Char,
    lcLeB a b = true → lcLeB b a = true → a = b := by
  intro a
  induction a with
  | nil =>
    intro b _ hba
    cases b with
    | nil => rfl
    | cons y bs => simp [lcLeB] at hba
  | cons x as ih =>
    intro b hab hba
    cases b with
    | nil => simp [lcLeB] at hab
    | cons y bs =>
      by_cases hxy : x = y
      · subst hxy
        simp only [lcLeB, if_pos rfl] at hab hba
        rw [ih bs hab hba]
      · simp only [lcLeB, if_neg hxy, if_neg (Ne.symm hxy)] at hab hba
        have h1 : x < y := by simpa using hab
        have h2 : y < x := by simpa using hba
        exact absurd (h1.trans h2) (lt_irrefl x)

instance : IsTotal (List Char) lcLe := ⟨lcLeB_total⟩

instance : IsTrans (List Char) lcLe := ⟨lcLeB_trans⟩

instance : IsAntisymm (List Char) lcLe := ⟨lcLeB_antisymm⟩

/-- Sorting is invariant under permutation of the input. -/
theorem pySorted_perm_eq (l1 l2 : List (List Char)) (h : List.Perm l1 l2) :
    pySorted l1 = pySorted l2 :=
  List.eq_of_perm_of_sorted
    ((List.perm_insertionSort lcLe l1).trans
      (h.trans (List.perm_insertionSort lcLe l2).symm))
    (List.sorted_insertionSort lcLe l1)
    (List.sorted_insertionSort lcLe l2)

/-- `chunkAux` on the empty list is empty. -/
theorem chunkAux_nil {α : Type} (fuel k : Nat) : chunkAux (α := α) fuel k [] = [] := by
  cases fuel <;> rfl

/-- Full characterization of the chunking loop for a positive chunk size:
concatenation restores the input, every chunk is nonempty of size at most
`k`, all but the last have size exactly `k`, and there are
`ceil(len / k)` chunks. -/
theorem chunkAux_spec {α : Type} (k : Nat) (hk : 1 ≤ k) :
    ∀ (fuel : Nat) (l : List α), l.length < fuel →
      (chunkAux fuel k l).flatten = l ∧
      (∀ c ∈ chunkAux fuel k l, c ≠ [] ∧ c.length ≤ k) ∧
      ((chunkAux fuel k l).dropLast.all (fun c => c.length = k) = true) ∧
      (chunkAux fuel k l).length = (l.length + k - 1) / k := by
  intro fuel
  induction fuel with
  | zero => intro l h; exact absurd h (Nat.not_lt_zero _)
  | succ fuel ih =>
    intro l h
    cases l with
    | nil =>
      refine ⟨rfl, by simp [chunkAux], by simp [chunkAux], ?_⟩
      show (0 : Nat) = (0 + k - 1) / k
      rw [Nat.div_eq_of_lt (by omega)]
    | cons x xs =>
      obtain ⟨m, rfl⟩ : ∃ m, k = m + 1 := ⟨k - 1, by omega⟩
      have hstep : chunkAux (fuel + 1) (m + 1) (x :: xs) =
          (x :: xs).take (m + 1) :: chunkAux fuel (m + 1) ((x :: xs).drop (m + 1)) := by
        show (if m + 1 = 0 then [] else _) = _
        rw [if_neg (by omega)]
      have hdl : ((x :: xs).drop (m + 1)).length < fuel := by
        rw [List.length_drop]
        simp only [List.length_cons] at h ⊢
        omega
      obtain ⟨i1, i2, i3, i4⟩ := ih ((x :: xs).drop (m + 1)) hdl
      refine ⟨?_, ?_, ?_, ?_⟩
      · rw [hstep, List.flatten_cons, i1, List.take_append_drop]
      · intro c hc
        rw [hstep] at hc
        rcases List.mem_cons.mp hc with h1 | h1
        · subst h1
          refine ⟨by rw [List.take_succ_cons]; simp, ?_⟩
          rw [List.length_take]
          omega
        · exact i2 c h1
      · rw [hstep]
        cases hc : chunkAux fuel (m + 1) ((x :: xs).drop (m + 1)) with
        | nil => simp
        | cons c cs =>
          have hdrop : (x :: xs).drop (m + 1) ≠ [] := by
            intro hd
            rw [hd, chunkAux_nil] at hc
            exact List.noConfusion hc
          have hlen2 : m + 1 < (x :: xs).length := by
            by_contra hcon
            exact hdrop (List.drop_eq_nil_of_le (by omega))
          have htk : ((x :: xs).take (m + 1)).length = m + 1 := by
            rw [List.length_take]
            omega
          rw [hc] at i3
          simp only [List.dropLast_cons₂, List.all_cons, i3, htk]
          simp
      · rw [hstep, List.length_cons, i4, List.length_drop]
        simp only [List.length_cons]
        set n := xs.length + 1 with hn
        have h1 : n ≥ 1 := by omega
        by_cases hnk : n ≤ m + 1
        · have e1 : n - (m + 1) = 0 := by omega
          rw [e1]
          have e2 : (0 + (m + 1) - 1) / (m + 1) = 0 := Nat.div_eq_of_lt (by omega)
          have e3 : (n + (m + 1) - 1) / (m + 1) = 1 := by
            have : n + (m + 1) - 1 = (n - 1) + (m + 1) := by omega
            rw [this, Nat.add_div_right _ (by omega)]
            rw [Nat.div_eq_of_lt (by omega)]
          rw [e2, e3]
        · have e1 : n - (m + 1) + (m + 1) - 1 = (n - 1 - (m + 1)) + (m + 1) := by omega
          have e2 : n + (m + 1) - 1 = (n - 1 - (m + 1)) + (m + 1) + (m + 1) := by omega
          rw [e1, e2, Nat.add_div_right _ (by omega), Nat.add_div_right _ (by omega),
            Nat.add_div_right _ (by omega)]

/-- C1: over any sequence of lock-protected registrations (any file list,
serial or any threaded interleaving; file paths newline-free, rule texts
stripped as the extractor produces them), the kept-rule set holds exactly
the annotated first-registered block of each distinct RuleName: the
registered names are exactly the pairwise-distinct names of the
first-occurrence subsequence, every later block with an already-seen name
is rejected, and its body is never added. -/
theorem claim1_registry_first_wins (pairs : List (List Char × List Char))
    (hwf : ∀ q ∈ pairs, '\n' ∉ q.1 ∧ pyStrip q.2 = q.2) :
    (registerAll pairs).all_yara_rules = (firstOccAux [] pairs).map pairAnnot ∧
    (registerAll pairs).rule_names = (firstOccAux [] pairs).map pairName ∧
    ((firstOccAux [] pairs).map pairName).Nodup ∧
    (∀ p ∈ pairs, pairName p ∈ (firstOccAux [] pairs).map pairName) := by
  have h := registerAll_fold pairs st0 [] rfl rfl (by intro q hq; simp at hq) hwf
  refine ⟨?_, ?_, (firstOccAux_names_nodup pairs []).1, ?_⟩
  · simpa using h.1
  · simpa using h.2.1
  · intro p hp
    rcases firstOccAux_complete pairs [] p hp with h1 | h1
    · simp at h1
    · exact h1

/-- Witness for C1 at a concrete two-registration run with a duplicate
name. -/
theorem claim1_registry_first_wins_witness :
    (registerAll [("a/x.yar".toList, "rule Foo \x7b condition true \x7d".toList),
        ("b/y.yar".toList, "rule Foo \x7b condition false \x7d".toList)]).all_yara_rules =
      (firstOccAux [] [("a/x.yar".toList, "rule Foo \x7b condition true \x7d".toList),
        ("b/y.yar".toList, "rule Foo \x7b condition false \x7d".toList)]).map pairAnnot ∧
    (registerAll [("a/x.yar".toList, "rule Foo \x7b condition true \x7d".toList),
        ("b/y.yar".toList, "rule Foo \x7b condition false \x7d".toList)]).rule_names =
      (firstOccAux [] [("a/x.yar".toList, "rule Foo \x7b condition true \x7d".toList),
        ("b/y.yar".toList, "rule Foo \x7b condition false \x7d".toList)]).map pairName ∧
    ((firstOccAux [] [("a/x.yar".toList, "rule Foo \x7b condition true \x7d".toList),
        ("b/y.yar".toList, "rule Foo \x7b condition false \x7d".toList)]).map pairName).Nodup ∧
    (∀ p ∈ [("a/x.yar".toList, "rule Foo \x7b condition true \x7d".toList),
        ("b/y.yar".toList, "rule Foo \x7b condition false \x7d".toList)],
      pairName p ∈ (firstOccAux [] [("a/x.yar".toList, "rule Foo \x7b condition true \x7d".toList),
        ("b/y.yar".toList, "rule Foo \x7b condition false \x7d".toList)]).map pairName) :=
  claim1_registry_first_wins _ (by decide)

/-- C2 counterexample: the claim says the `private` qualifier is stripped
when computing the RuleName, but the code keeps it: for the matched block
`private rule Foo { condition true }` the deduplication key is
`private rule Foo`, not `rule Foo`. -/
theorem claim2_rulename_counterexample :
    ("private rule Foo \x7b condition true \x7d".toList) ∈
      ((extract (some ("private rule Foo \x7b condition true \x7d".toList))).rules.getD []) ∧
    ruleName ("private rule Foo \x7b condition true \x7d".toList) =
      "private rule Foo".toList ∧
    specRuleNameClaim ("private rule Foo \x7b condition true \x7d".toList) =
      "rule Foo".toList ∧
    ruleName ("private rule Foo \x7b condition true \x7d".toList) ≠
      specRuleNameClaim ("private rule Foo \x7b condition true \x7d".toList) := by
  decide

/-- C2 amended: for every matched rule block, the RuleName used for
deduplication is the whitespace-stripped text of the block's first line
before the first brace, or, when that text contains a colon, the
whitespace-stripped text of the whole block before the first colon; no
`private` qualifier is stripped. -/
theorem claim2_rulename_amended (r : List Char) : ruleName r = ruleNamePlain r :=
  ruleName_eq_plain r

/-- C3: after processing any sequence of files (paths newline-free), the
counters satisfy total rules seen = rules kept + duplicate rules, with the
kept count being the size of `all_yara_rules`. -/
theorem claim3_duplicate_accounting (files : List (List Char × Option (List Char)))
    (hnl : ∀ f ∈ files, '\n' ∉ f.1) :
    (runDedupe files).1.total_rules =
      (runDedupe files).1.all_yara_rules.length +
      (runDedupe files).1.total_duplicate_rules :=
  runDedupe_balanced files hnl

/-- Witness for C3 at the spec's two-file scenario (three rules, one
duplicate). -/
theorem claim3_duplicate_accounting_witness :
    (runDedupe [("a/x.yar".toList, some ("rule Foo \x7b condition true \x7d".toList)),
        ("b/y.yar".toList,
          some ("rule Foo \x7b condition false \x7d\nrule Bar \x7b condition true \x7d".toList))]).1.total_rules =
      (runDedupe [("a/x.yar".toList, some ("rule Foo \x7b condition true \x7d".toList)),
        ("b/y.yar".toList,
          some ("rule Foo \x7b condition false \x7d\nrule Bar \x7b condition true \x7d".toList))]).1.all_yara_rules.length +
      (runDedupe [("a/x.yar".toList, some ("rule Foo \x7b condition true \x7d".toList)),
        ("b/y.yar".toList,
          some ("rule Foo \x7b condition false \x7d\nrule Bar \x7b condition true \x7d".toList))]).1.total_duplicate_rules :=
  claim3_duplicate_accounting _ (by decide)

/-- C4: any matched rule block whose exact text occurs inside one of the
matched comment blocks is discarded from the live rule list; and a file
containing only a commented-out rule block contributes zero kept entries,
zero counter changes, and exactly one commented-rules artifact. -/
theorem claim4_commented_discarded :
    (∀ content x c : List Char, x ∈ (rules_scan content).map cleanRule →
      c ∈ comment_scan content → x <:+: c →
      x ∉ ((extract (some content)).rules.getD [])) ∧
    (extract (some ("/* rule Foo \x7b\n  condition x \x7d\n*/\n".toList))).rules = some [] ∧
    (extract (some ("/* rule Foo \x7b\n  condition x \x7d\n*/\n".toList))).comments =
      some [("/* rule Foo \x7b\n  condition x \x7d\n*/").toList] ∧
    processFile st0 ("c/z.yar".toList)
        (some ("/* rule Foo \x7b\n  condition x \x7d\n*/\n".toList)) =
      (st0, [Artifact.commented ("c".toList) ("z.yar".toList)
        [("/* rule Foo \x7b\n  condition x \x7d\n*/").toList]]) :=
  ⟨extract_filters_commented, by decide, by decide, by decide⟩

/-- Witness for C4: the commented-out `rule Foo` block is not in the live
rule list of its file. -/
theorem claim4_commented_discarded_witness :
    ("rule Foo \x7b\n  condition x \x7d".toList) ∉
      ((extract (some ("/* rule Foo \x7b\n  condition x \x7d\n*/\n".toList))).rules.getD []) :=
  claim4_commented_discarded.1 ("/* rule Foo \x7b\n  condition x \x7d\n*/\n".toList)
    ("rule Foo \x7b\n  condition x \x7d".toList)
    ("/* rule Foo \x7b\n  condition x \x7d\n*/".toList)
    (by decide) (by decide) (by decide)

/-- C5 counterexample: with 25 files and 10 workers the scheduler does not
build 10 shards with the remainder appended to trailing shards; it builds
13 chunks (12 of size 2 and one of size 1), spawning 13 threads. -/
theorem claim5_shard_counterexample :
    (shard_files (List.range 25) 10).length = 13 ∧ (13 : Nat) ≠ 10 ∧
    (shard_files (List.range 25) 10).map List.length =
      [2, 2, 2, 2, 2, 2, 2, 2, 2, 2, 2, 2, 1] := by
  decide

/-- C5 amended: the scheduler clamps the worker count to
`min(workerCount, len(files))`, computes the chunk size
`k = len(files) // workers`, and slices the file list into contiguous
chunks of size `k` in input order — every chunk nonempty and of size at
most `k`, all but the last of size exactly `k`, `ceil(len(files)/k)` chunks
in total (which can exceed the worker count), and concatenating the chunks
restores the input list. -/
theorem claim5_shard_amended {α : Type} (files : List α) (spin : Nat)
    (hne : files ≠ []) (hsp : 1 ≤ spin) :
    (shard_files files spin).flatten = files ∧
    (∀ c ∈ shard_files files spin, c ≠ [] ∧
      c.length ≤ files.length / (if files.length ≤ spin then files.length else spin)) ∧
    ((shard_files files spin).dropLast.all
      (fun c => c.length =
        files.length / (if files.length ≤ spin then files.length else spin)) = true) ∧
    (shard_files files spin).length =
      (files.length +
        files.length / (if files.length ≤ spin then files.length else spin) - 1) /
      (files.length / (if files.length ≤ spin then files.length else spin)) := by
  have hlp : 1 ≤ files.length := List.length_pos.mpr hne
  have hk : 1 ≤ files.length / (if files.length ≤ spin then files.length else spin) := by
    rw [Nat.one_le_div_iff (by split <;> omega)]
    split <;> omega
  exact chunkAux_spec _ hk (files.length + 1) files (by omega)

/-- Witness for C5 amended at 25 files and 10 workers. -/
theorem claim5_shard_amended_witness :
    (shard_files (List.range 25) 10).flatten = List.range 25 ∧
    (∀ c ∈ shard_files (List.range 25) 10, c ≠ [] ∧
      c.length ≤ (List.range 25).length /
        (if (List.range 25).length ≤ 10 then (List.range 25).length else 10)) ∧
    ((shard_files (List.range 25) 10).dropLast.all
      (fun c => c.length = (List.range 25).length /
        (if (List.range 25).length ≤ 10 then (List.range 25).length else 10)) = true) ∧
    (shard_files (List.range 25) 10).length =
      ((List.range 25).length + (List.range 25).length /
        (if (List.range 25).length ≤ 10 then (List.range 25).length else 10) - 1) /
      ((List.range 25).length /
        (if (List.range 25).length ≤ 10 then (List.range 25).length else 10)) :=
  claim5_shard_amended (List.range 25) 10 (by decide) (by decide)

/-- C6 counterexample: the import section of the merged artifact is not
sorted and depends on the set-enumeration order: the two enumerations
`["b", "a"]` and `["a", "b"]` of the same import set produce different
artifacts, and neither the claimed sorted-imports form is produced. -/
theorem claim6_merge_counterexample :
    merged_artifact ["b".toList, "a".toList] [] ≠
      specMergedArtifact ["b".toList, "a".toList] [] ∧
    merged_artifact ["b".toList, "a".toList] [] ≠
      merged_artifact ["a".toList, "b".toList] [] ∧
    List.Perm ["b".toList, "a".toList] ["a".toList, "b".toList] := by
  refine ⟨by decide, by decide, by decide⟩

/-- C6 amended: the merged artifact is the imports joined by newlines in
the given (unspecified set-iteration) order, followed by the kept-rule set
sorted lexicographically; only the rules section is deterministic — it is
invariant under permutation of the kept-rule accumulation order. -/
theorem claim6_merge_amended (importsEnum kept1 kept2 : List (List Char))
    (h : List.Perm kept1 kept2) :
    merged_artifact importsEnum kept1 = merged_artifact importsEnum kept2 := by
  unfold merged_artifact
  rw [pySorted_perm_eq kept1 kept2 h]

/-- Witness for C6 amended: two accumulation orders of the same kept set
give the same artifact. -/
theorem claim6_merge_amended_witness :
    merged_artifact ["a".toList] ["r2".toList, "r1".toList] =
      merged_artifact ["a".toList] ["r1".toList, "r2".toList] :=
  claim6_merge_amended _ _ _ (by decide)

/-- C7 (code bug): the index filter excludes the never-generated name
`all_in_one_rules.yar` but not the merged artifact's actual name
`all_in_one.yar`, so `index.yar` lists the merged artifact. -/
theorem claim7_index_includes_merged :
    indexEligible ("all_in_one.yar".toList) = true ∧
    indexEligible ("all_in_one_rules.yar".toList) = false ∧
    index_yar_content [("out/deduped_rules".toList, "all_in_one.yar".toList),
        ("out/deduped_rules/a".toList, "x.yar".toList)] =
      ("include \"out/deduped_rules/all_in_one.yar\"\ninclude \"out/deduped_rules/a/x.yar\"").toList := by
  decide

/-- C8 counterexample: a file consisting of a single import declaration
and no rule block contributes nothing to the process-wide import set,
although the import pattern matches its import line — imports are only
scanned when at least one rule block matched. -/
theorem claim8_imports_counterexample :
    import_scan ("import \"pe\"\n".toList) = ["import \"pe\"".toList] ∧
    (extract (some ("import \"pe\"\n".toList))).imports = some [] ∧
    (runDedupe [("r/a.yar".toList, some ("import \"pe\"\n".toList))]).1.all_imports = [] := by
  decide

/-- C8 amended: when the file's content matches at least one rule block,
`extract` returns the import-pattern matches of the content in text order
and every ImportStatement found is merged into the process-wide import
set; a file with no matched rule blocks contributes no imports. -/
theorem claim8_imports_amended (content : List Char) :
    (rules_scan content ≠ [] →
      (extract (some content)).imports = some (import_scan content) ∧
      ∀ (s : DState) (yf i : List Char), i ∈ import_scan content →
        i ∈ (processFile s yf (some content)).1.all_imports) ∧
    (rules_scan content = [] →
      ∀ (s : DState) (yf : List Char),
        (processFile s yf (some content)).1.all_imports = s.all_imports) := by
  constructor
  · intro hys
    have hc : content ≠ [] := by
      intro h
      subst h
      exact hys rfl
    have himp : (extract (some content)).imports = some (import_scan content) := by
      by_cases hraw : comment_scan content = []
      · rw [extract_some_nocomment content hc hys hraw]
      · rw [extract_some_spec content hc hys hraw]
    refine ⟨himp, ?_⟩
    intro s yf i hi
    obtain ⟨s1, _, _, _, _, e5, efold⟩ := processFile_state s yf (some content)
    rw [efold, foldl_pairs_imports, e5, himp]
    simp only [Option.getD_some]
    have hne : (import_scan content).isEmpty = false := by
      cases hI : import_scan content with
      | nil => rw [hI] at hi; simp at hi
      | cons a t => rfl
    rw [hne]
    simp only [Bool.false_eq_true, if_false]
    exact mem_foldl_insertSet _ _ i hi
  · intro hys s yf
    by_cases hc : content = []
    · subst hc
      rfl
    · obtain ⟨s1, _, _, _, _, e5, efold⟩ := processFile_state s yf (some content)
      rw [efold, foldl_pairs_imports, e5, extract_some_norules content hc hys]
      rfl

/-- Witness for C8 amended: a file with an import line and a rule block
gets its import merged into the process-wide set. -/
theorem claim8_imports_amended_witness :
    ("import \"pe\"".toList) ∈
      (processFile st0 ("r/a.yar".toList)
        (some ("import \"pe\"\nrule A \x7b condition x \x7d\n".toList))).1.all_imports :=
  ((claim8_imports_amended ("import \"pe\"\nrule A \x7b condition x \x7d\n".toList)).1
    (by decide)).2 st0 ("r/a.yar".toList) ("import \"pe\"".toList) (by decide)

/-- C9 counterexample: an error raised while opening the output file (the
`io.open` call sits outside the `try` block) propagates out of `write_file`
and aborts the serial run — the second file is never processed and the run
does not continue. -/
theorem claim9_write_error_counterexample :
    dedupe_io_run [(none, some ("disk full".toList), none), (none, none, none)] =
      Except.error ("disk full".toList) ∧
    Except.error ("disk full".toList) ≠ (Except.ok () : Except (List Char) Unit) := by
  exact ⟨rfl, by simp⟩

/-- C9 amended: only errors raised while writing to an already-opened file
are caught and reported (the run continues); errors opening the output
file or creating a directory are not caught, and in a serial run the first
such error aborts processing of all remaining files. -/
theorem claim9_write_error_amended :
    (∀ w : List Char, write_file_io none (some w) = Except.ok ()) ∧
    (∀ (e : List Char) (w : Option (List Char)),
      write_file_io (some e) w = Except.error e) ∧
    (∀ (e : List Char) (o w : Option (List Char)),
      dedupe_write_step (some e) o w = Except.error e) ∧
    (∀ l, (∀ f ∈ l, f.1 = none ∧ f.2.1 = none) →
      dedupe_io_run l = Except.ok ()) ∧
    (∀ (e : List Char) rest,
      dedupe_io_run ((none, some e, none) :: rest) = Except.error e) := by
  refine ⟨fun w => rfl, fun e w => rfl, fun e o w => rfl, ?_, fun e rest => rfl⟩
  intro l h
  induction l with
  | nil => rfl
  | cons f rest ih =>
    rcases f with ⟨m, o, w⟩
    obtain ⟨h1, h2⟩ := h _ (List.mem_cons_self _ _)
    dsimp at h1 h2
    subst h1
    subst h2
    have hstep : dedupe_write_step none none w = Except.ok () := by
      cases w <;> rfl
    show (match dedupe_write_step none none w with
      | Except.error e => Except.error e
      | Except.ok _ => dedupe_io_run rest) = Except.ok ()
    rw [hstep]
    exact ih (fun g hg => h g (List.mem_cons_of_mem _ hg))

/-- Witness for C9 amended: a run whose only error is a write error
completes normally. -/
theorem claim9_write_error_amended_witness :
    dedupe_io_run [((none : Option (List Char)), (none : Option (List Char)),
      some ("e".toList))] = Except.ok () :=
  claim9_write_error_amended.2.2.2.1 _ (by decide)

/-- C10: a file that decodes to empty content is treated exactly like an
undecodable file: `extract` returns (None, None, None), and the
deduplicator creates no artifacts and changes no state for it. -/
theorem claim10_empty_content (attempts : List (Option (List Char)))
    (h : firstDecode attempts = some []) :
    extract (firstDecode attempts) = ⟨none, none, none⟩ ∧
    extract (firstDecode attempts) = extract none ∧
    (∀ (s : DState) (yf : List Char),
      processFile s yf (firstDecode attempts) = (s, [])) := by
  rw [h]
  exact ⟨rfl, rfl, fun s yf => rfl⟩

/-- Witness for C10: an attempt list whose first successful decode is
empty. -/
theorem claim10_empty_content_witness :
    processFile st0 ("a/x.yar".toList) (firstDecode [none, some []]) = (st0, []) :=
  (claim10_empty_content [none, some []] (by decide)).2.2 st0 ("a/x.yar".toList)

end DedupeYara
